import Mathlib

/-!
Verification of the image_merger repository's layout/merge logic.

The JavaScript sources are shallowly embedded: JS numbers are modelled as
exact rationals (`ℚ`), `Math.round` as `jsRound` (floor of `q + 1/2`, which
is exactly JS round-half-up semantics), and fallible code as `Except`.
-/

namespace ImageMerger

/-- JS `Math.round`: rounds half toward positive infinity. -/
def jsRound (q : ℚ) : ℤ := ⌊q + 1 / 2⌋

lemma jsRound_mono {a b : ℚ} (h : a ≤ b) : jsRound a ≤ jsRound b := by
  unfold jsRound
  exact Int.floor_le_floor (by linarith)

lemma jsRound_intCast (n : ℤ) : jsRound (n : ℚ) = n := by
  unfold jsRound
  rw [show ((n : ℚ) + 1 / 2) = 1 / 2 + (n : ℚ) by ring, Int.floor_add_int]
  have h0 : ⌊(1 / 2 : ℚ)⌋ = 0 := by
    rw [Int.floor_eq_zero_iff]
    constructor <;> norm_num
  omega

lemma jsRound_natCast (n : ℕ) : jsRound (n : ℚ) = n := by
  have := jsRound_intCast (n : ℤ)
  rwa [show (((n : ℤ) : ℚ)) = (n : ℚ) by push_cast; ring] at this

lemma jsRound_nonneg {q : ℚ} (h : 0 ≤ q) : 0 ≤ jsRound q := by
  have := jsRound_mono h
  rwa [show jsRound 0 = 0 from jsRound_intCast 0] at this

/-- Doubling a rounded half-integer overshoots by at most 1:
`2 * round(d/2) ∈ {d, d+1}` for integer `d`. -/
lemma two_mul_jsRound_half (d : ℤ) :
    2 * jsRound ((d : ℚ) / 2) = d ∨ 2 * jsRound ((d : ℚ) / 2) = d + 1 := by
  unfold jsRound
  set k := ⌊(d : ℚ) / 2 + 1 / 2⌋ with hk
  have h1 : (k : ℚ) ≤ (d : ℚ) / 2 + 1 / 2 := Int.floor_le _
  have h2 : (d : ℚ) / 2 + 1 / 2 < (k : ℚ) + 1 := Int.lt_floor_add_one _
  have h1' : 2 * k ≤ d + 1 := by exact_mod_cast (by linarith : (2 * k : ℚ) ≤ (d : ℚ) + 1)
  have h2' : d < 2 * k + 1 := by exact_mod_cast (by linarith : (d : ℚ) < (2 * k : ℚ) + 1)
  omega

-- ─── Fit Calculator (fitInBox in cli/splitmerge.js and src/core/imageProcessor.js) ───

structure FitResult where
  w : ℤ
  h : ℤ
  offsetX : ℤ
  offsetY : ℤ
deriving DecidableEq

/-- Embedding of `fitInBox(srcW, srcH, targetW, targetH)` from
`src/cli/splitmerge.js` lines 179–186 (identical copy in
`src/src/core/imageProcessor.js` lines 58–65). -/
def fitInBox (srcW srcH targetW targetH : ℚ) : FitResult :=
  let scale := min (targetW / srcW) (targetH / srcH)
  let w := jsRound (srcW * scale)
  let h := jsRound (srcH * scale)
  let offsetX := jsRound ((targetW - (w : ℚ)) / 2)
  let offsetY := jsRound ((targetH - (h : ℚ)) / 2)
  ⟨w, h, offsetX, offsetY⟩

/-- The fit calculation as the spec states it: `scale = min(targetW/srcW,
targetH/srcH)`; `w = round(srcW*scale)`, `h = round(srcH*scale)`;
`offsetX = round((targetW-w)/2)`, `offsetY = round((targetH-h)/2)`. -/
def fitSpec (srcW srcH targetW targetH : ℚ) : FitResult :=
  let scale := min (targetW / srcW) (targetH / srcH)
  let w := jsRound (srcW * scale)
  let h := jsRound (srcH * scale)
  ⟨w, h, jsRound ((targetW - (w : ℚ)) / 2), jsRound ((targetH - (h : ℚ)) / 2)⟩

/-- Claim C2: for every positive `srcW, srcH, targetW, targetH` the fit
calculator returns exactly the spec's formulas, and in particular
`fit(1000,500,500,500) = {w:500, h:250, offsetX:0, offsetY:125}` and
`fit(1000,1000,500,500) = {w:500, h:500, offsetX:0, offsetY:0}`. -/
theorem C2_fit_formula (srcW srcH targetW targetH : ℕ)
    (hsw : 0 < srcW) (hsh : 0 < srcH) (htw : 0 < targetW) (hth : 0 < targetH) :
    fitInBox srcW srcH targetW targetH = fitSpec srcW srcH targetW targetH ∧
    fitInBox 1000 500 500 500 = ⟨500, 250, 0, 125⟩ ∧
    fitInBox 1000 1000 500 500 = ⟨500, 500, 0, 0⟩ := by
  refine ⟨rfl, ?_, ?_⟩ <;>
    norm_num [fitInBox, jsRound, min_def, FitResult.mk.injEq]

theorem C2_fit_formula_witness :
    fitInBox ((1000 : ℕ) : ℚ) ((500 : ℕ) : ℚ) ((500 : ℕ) : ℚ) ((500 : ℕ) : ℚ) =
      fitSpec ((1000 : ℕ) : ℚ) ((500 : ℕ) : ℚ) ((500 : ℕ) : ℚ) ((500 : ℕ) : ℚ) ∧
    fitInBox 1000 500 500 500 = ⟨500, 250, 0, 125⟩ ∧
    fitInBox 1000 1000 500 500 = ⟨500, 500, 0, 0⟩ :=
  C2_fit_formula 1000 500 500 500 (by decide) (by decide) (by decide) (by decide)

/-- Claim C10: the fit result is contained in the target box and centered:
`0 ≤ w ≤ targetW`, `0 ≤ h ≤ targetH`, nonnegative offsets, and
`w + 2*offsetX` differs from `targetW` by at most 1 (same for height). -/
theorem C10_fit_contained (srcW srcH targetW targetH : ℕ)
    (hsw : 0 < srcW) (hsh : 0 < srcH) (htw : 0 < targetW) (hth : 0 < targetH) :
    0 ≤ (fitInBox srcW srcH targetW targetH).w ∧
    (fitInBox srcW srcH targetW targetH).w ≤ targetW ∧
    0 ≤ (fitInBox srcW srcH targetW targetH).h ∧
    (fitInBox srcW srcH targetW targetH).h ≤ targetH ∧
    0 ≤ (fitInBox srcW srcH targetW targetH).offsetX ∧
    0 ≤ (fitInBox srcW srcH targetW targetH).offsetY ∧
    |(fitInBox srcW srcH targetW targetH).w +
      2 * (fitInBox srcW srcH targetW targetH).offsetX - targetW| ≤ 1 ∧
    |(fitInBox srcW srcH targetW targetH).h +
      2 * (fitInBox srcW srcH targetW targetH).offsetY - targetH| ≤ 1 := by
  have hswQ : (0 : ℚ) < srcW := by exact_mod_cast hsw
  have hshQ : (0 : ℚ) < srcH := by exact_mod_cast hsh
  have htwQ : (0 : ℚ) ≤ targetW := by positivity
  have hthQ : (0 : ℚ) ≤ targetH := by positivity
  set scale := min ((targetW : ℚ) / srcW) ((targetH : ℚ) / srcH) with hscale
  have hscale0 : 0 ≤ scale := le_min (by positivity) (by positivity)
  -- the scaled sizes stay inside the target box
  have hwle : (srcW : ℚ) * scale ≤ targetW := by
    have h1 : scale ≤ (targetW : ℚ) / srcW := min_le_left _ _
    calc (srcW : ℚ) * scale ≤ (srcW : ℚ) * ((targetW : ℚ) / srcW) := by
          exact mul_le_mul_of_nonneg_left h1 (le_of_lt hswQ)
      _ = targetW := by field_simp
  have hhle : (srcH : ℚ) * scale ≤ targetH := by
    have h1 : scale ≤ (targetH : ℚ) / srcH := min_le_right _ _
    calc (srcH : ℚ) * scale ≤ (srcH : ℚ) * ((targetH : ℚ) / srcH) := by
          exact mul_le_mul_of_nonneg_left h1 (le_of_lt hshQ)
      _ = targetH := by field_simp
  have hw0 : 0 ≤ jsRound ((srcW : ℚ) * scale) := jsRound_nonneg (by positivity)
  have hh0 : 0 ≤ jsRound ((srcH : ℚ) * scale) := jsRound_nonneg (by positivity)
  have hwle' : jsRound ((srcW : ℚ) * scale) ≤ targetW := by
    have := jsRound_mono hwle
    rwa [jsRound_natCast] at this
  have hhle' : jsRound ((srcH : ℚ) * scale) ≤ targetH := by
    have := jsRound_mono hhle
    rwa [jsRound_natCast] at this
  set w := jsRound ((srcW : ℚ) * scale) with hwdef
  set h := jsRound ((srcH : ℚ) * scale) with hhdef
  have hoxeq : (((targetW : ℚ) - (w : ℚ)) / 2) = ((((targetW : ℤ) - w : ℤ) : ℚ) / 2) := by
    push_cast; ring
  have hoyeq : (((targetH : ℚ) - (h : ℚ)) / 2) = ((((targetH : ℤ) - h : ℤ) : ℚ) / 2) := by
    push_cast; ring
  have hox0 : 0 ≤ jsRound (((targetW : ℚ) - (w : ℚ)) / 2) := by
    apply jsRound_nonneg
    have : (w : ℚ) ≤ targetW := by exact_mod_cast hwle'
    linarith
  have hoy0 : 0 ≤ jsRound (((targetH : ℚ) - (h : ℚ)) / 2) := by
    apply jsRound_nonneg
    have : (h : ℚ) ≤ targetH := by exact_mod_cast hhle'
    linarith
  have hcx := two_mul_jsRound_half ((targetW : ℤ) - w)
  have hcy := two_mul_jsRound_half ((targetH : ℤ) - h)
  rw [← hoxeq] at hcx
  rw [← hoyeq] at hcy
  show 0 ≤ w ∧ w ≤ (targetW : ℤ) ∧ 0 ≤ h ∧ h ≤ (targetH : ℤ) ∧
    0 ≤ jsRound (((targetW : ℚ) - (w : ℚ)) / 2) ∧
    0 ≤ jsRound (((targetH : ℚ) - (h : ℚ)) / 2) ∧
    |w + 2 * jsRound (((targetW : ℚ) - (w : ℚ)) / 2) - (targetW : ℤ)| ≤ 1 ∧
    |h + 2 * jsRound (((targetH : ℚ) - (h : ℚ)) / 2) - (targetH : ℤ)| ≤ 1
  refine ⟨hw0, hwle', hh0, hhle', hox0, hoy0, ?_, ?_⟩
  · rcases hcx with hc | hc <;> rw [abs_le] <;> omega
  · rcases hcy with hc | hc <;> rw [abs_le] <;> omega

theorem C10_fit_contained_witness :
    0 ≤ (fitInBox ((1000 : ℕ) : ℚ) ((500 : ℕ) : ℚ) ((500 : ℕ) : ℚ) ((500 : ℕ) : ℚ)).w ∧
    (fitInBox ((1000 : ℕ) : ℚ) ((500 : ℕ) : ℚ) ((500 : ℕ) : ℚ) ((500 : ℕ) : ℚ)).w ≤ (500 : ℕ) ∧
    0 ≤ (fitInBox ((1000 : ℕ) : ℚ) ((500 : ℕ) : ℚ) ((500 : ℕ) : ℚ) ((500 : ℕ) : ℚ)).h ∧
    (fitInBox ((1000 : ℕ) : ℚ) ((500 : ℕ) : ℚ) ((500 : ℕ) : ℚ) ((500 : ℕ) : ℚ)).h ≤ (500 : ℕ) ∧
    0 ≤ (fitInBox ((1000 : ℕ) : ℚ) ((500 : ℕ) : ℚ) ((500 : ℕ) : ℚ) ((500 : ℕ) : ℚ)).offsetX ∧
    0 ≤ (fitInBox ((1000 : ℕ) : ℚ) ((500 : ℕ) : ℚ) ((500 : ℕ) : ℚ) ((500 : ℕ) : ℚ)).offsetY ∧
    |(fitInBox ((1000 : ℕ) : ℚ) ((500 : ℕ) : ℚ) ((500 : ℕ) : ℚ) ((500 : ℕ) : ℚ)).w +
      2 * (fitInBox ((1000 : ℕ) : ℚ) ((500 : ℕ) : ℚ) ((500 : ℕ) : ℚ) ((500 : ℕ) : ℚ)).offsetX -
      ((500 : ℕ) : ℤ)| ≤ 1 ∧
    |(fitInBox ((1000 : ℕ) : ℚ) ((500 : ℕ) : ℚ) ((500 : ℕ) : ℚ) ((500 : ℕ) : ℚ)).h +
      2 * (fitInBox ((1000 : ℕ) : ℚ) ((500 : ℕ) : ℚ) ((500 : ℕ) : ℚ) ((500 : ℕ) : ℚ)).offsetY -
      ((500 : ℕ) : ℤ)| ≤ 1 :=
  C10_fit_contained 1000 500 500 500 (by decide) (by decide) (by decide) (by decide)

-- ─── Split layout dimension resolution (mergeImages, layout '2') ───

/-- Source-image metadata: pixel width and height, as read by
`sharp(p).metadata()` in the CLI or `naturalWidth`/`naturalHeight` in the UI. -/
structure Meta where
  width : ℕ
  height : ℕ
deriving DecidableEq

/-- Embedding of the Split-layout output-dimension computation of
`mergeImages` in `src/cli/splitmerge.js` lines 76–95 (the same arithmetic,
with `gap` called `spacing`, is in `drawLayout2` of `src/unnamed/part_002`
lines 329–349). `width = 0` / `height = 0` means "not given", exactly as in
the CLI where unset flags parse to 0. Returns `(outW, outH)`. -/
def splitDims (left right : Meta) (width height gap : ℕ) : ℤ × ℤ :=
  if 0 < width ∧ 0 < height then
    ((width : ℤ), (height : ℤ))
  else if 0 < width then
    let hw : ℚ := ((width : ℚ) - (gap : ℚ)) / 2
    ((width : ℤ),
     jsRound (max ((left.height : ℚ) * (hw / (left.width : ℚ)))
                  ((right.height : ℚ) * (hw / (right.width : ℚ)))))
  else if 0 < height then
    (jsRound ((left.width : ℚ) * ((height : ℚ) / (left.height : ℚ)) +
              (right.width : ℚ) * ((height : ℚ) / (right.height : ℚ)) + (gap : ℚ)),
     (height : ℤ))
  else
    let th : ℕ := max left.height right.height
    (jsRound ((left.width : ℚ) * ((th : ℚ) / (left.height : ℚ))) +
       jsRound ((right.width : ℚ) * ((th : ℚ) / (right.height : ℚ))) + (gap : ℤ),
     (th : ℤ))

/-- The Split auto-size rule as the spec states it (neither width nor height
given): target height is `max` of the source heights, each width is scaled to
that height and rounded per side, and the output width is the sum of the two
rounded widths plus the gap. -/
def specSplitAuto (left right : Meta) (gap : ℕ) : ℤ × ℤ :=
  let th : ℚ := max (left.height : ℚ) (right.height : ℚ)
  (jsRound ((left.width : ℚ) * th / (left.height : ℚ)) +
     jsRound ((right.width : ℚ) * th / (right.height : ℚ)) + (gap : ℤ),
   ((max left.height right.height : ℕ) : ℤ))

/-- The Split width-only rule as the spec states it: half-width
`hw = (width - gap)/2`, each source height scaled by `hw / sourceWidth_i`,
output height the rounded maximum, output width the given width. -/
def specSplitWidthOnly (left right : Meta) (width gap : ℕ) : ℤ × ℤ :=
  let hw : ℚ := ((width : ℚ) - (gap : ℚ)) / 2
  ((width : ℤ),
   jsRound (max ((left.height : ℚ) * hw / (left.width : ℚ))
                ((right.height : ℚ) * hw / (right.width : ℚ))))

/-- Claim C1: with neither explicit width nor height, the Split layout output
is exactly the spec formula: height `max(h₀, h₁)`, width
`round(w₀·th/h₀) + round(w₁·th/h₁) + gap`, rounded independently per side. -/
theorem C1_split_auto (left right : Meta) (gap : ℕ)
    (hl : 0 < left.height) (hr : 0 < right.height) :
    splitDims left right 0 0 gap = specSplitAuto left right gap := by
  unfold splitDims specSplitAuto
  simp only [lt_irrefl, false_and, and_false, if_false, if_neg (lt_irrefl 0)]
  simp only [Prod.mk.injEq]
  refine ⟨?_, trivial⟩
  push_cast
  rw [mul_div_assoc, mul_div_assoc]

theorem C1_split_auto_witness :
    splitDims ⟨100, 50⟩ ⟨30, 100⟩ 0 0 7 = specSplitAuto ⟨100, 50⟩ ⟨30, 100⟩ 7 :=
  C1_split_auto ⟨100, 50⟩ ⟨30, 100⟩ 7 (by decide) (by decide)

/-- Claim C3: with only an explicit width, the Split layout output is exactly
the spec formula: `hw = (width-gap)/2`, heights scaled by `hw/w_i`, output
height the rounded maximum of the scaled heights, output width as given. -/
theorem C3_split_width_only (left right : Meta) (width gap : ℕ)
    (hw : 0 < width) (hl : 0 < left.width) (hr : 0 < right.width) :
    splitDims left right width 0 gap = specSplitWidthOnly left right width gap := by
  unfold splitDims specSplitWidthOnly
  simp only [lt_irrefl, and_false, if_false, if_pos hw]
  simp only [Prod.mk.injEq]
  refine ⟨trivial, ?_⟩
  rw [mul_div_assoc, mul_div_assoc]

theorem C3_split_width_only_witness :
    splitDims ⟨100, 50⟩ ⟨30, 100⟩ 3000 0 20 = specSplitWidthOnly ⟨100, 50⟩ ⟨30, 100⟩ 3000 20 :=
  C3_split_width_only ⟨100, 50⟩ ⟨30, 100⟩ 3000 20 (by decide) (by decide) (by decide)

-- ─── Image-count checks before a Split merge (claim C4) ───

/-- Embedding of the front of `mergeImages` in `src/cli/splitmerge.js`
(layout '2'): an empty list throws `No input images provided`; otherwise
`left = metas[0]` and `right = metas[1] || metas[0]` — a single image is
silently used for both sides. File loading and compositing are abstracted
away; the returned value is the `(outW, outH)` pair used to allocate the
output surface. -/
def cliMergeDims (metas : List Meta) (width height gap : ℕ) : Except String (ℤ × ℤ) :=
  match metas with
  | [] => .error "No input images provided"
  | left :: rest =>
    let right := rest.headD left
    .ok (splitDims left right width height gap)

/-- Effective dimensions helper `getDim` of `drawLayout2` in
`src/unnamed/part_002` lines 314–321: a transform whose rotation is truthy
and an odd quarter-turn swaps width and height. (`(rotate/90) % 2` is
written with integer division; it agrees with the JS float arithmetic on the
multiples of 90 that the rotation state can hold.) -/
def getDim (m : Meta) (rotate : ℤ) : Meta :=
  if rotate ≠ 0 ∧ (rotate / 90) % 2 ≠ 0 then ⟨m.height, m.width⟩ else m

/-- Embedding of `drawLayout2` of `src/unnamed/part_002` lines 296–349 (the
GUI Split merge; same guard in `mergeImages` of
`src/src/core/imageProcessor.js` lines 182–184): fewer than two images
throws `Layout 2 requires at least 2 images` before the canvas is created;
otherwise the output dimensions are computed from the rotation-adjusted
effective sizes. -/
def drawLayout2Dims (images : List Meta) (rotates : List ℤ)
    (width height spacing : ℕ) : Except String (ℤ × ℤ) :=
  match images with
  | left :: right :: _ =>
    .ok (splitDims (getDim left (rotates.getD 0 0)) (getDim right (rotates.getD 1 0))
          width height spacing)
  | _ => .error "Layout 2 requires at least 2 images"

/-- Claim C4 fails on the CLI: a Split merge invoked with a single image does
not fail at all — `metas[1] || metas[0]` duplicates the one image and the
merge succeeds (here with a 100×100 source, producing a 200×100 canvas). -/
theorem C4_counterexample :
    cliMergeDims [⟨100, 100⟩] 0 0 0 = .ok (200, 100) := by
  show Except.ok (splitDims ⟨100, 100⟩ ⟨100, 100⟩ 0 0 0) = _
  unfold splitDims
  norm_num [jsRound]

/-- Claim C4 amended: only the GUI merge implementations reject a Split merge
with fewer than 2 images (error `Layout 2 requires at least 2 images`,
raised before any canvas allocation — the error branch returns before output
dimensions exist); the CLI errors only on an empty image list and with
exactly one image falls back to using it for both sides. -/
theorem C4_amended :
    (∀ (images : List Meta) (rotates : List ℤ) (width height spacing : ℕ),
        images.length < 2 →
        drawLayout2Dims images rotates width height spacing =
          .error "Layout 2 requires at least 2 images") ∧
    (∀ width height gap : ℕ,
        cliMergeDims [] width height gap = .error "No input images provided") ∧
    (∀ (m : Meta) (width height gap : ℕ),
        cliMergeDims [m] width height gap = .ok (splitDims m m width height gap)) := by
  refine ⟨?_, fun _ _ _ => rfl, fun _ _ _ _ => rfl⟩
  intro images rotates width height spacing hlen
  match images with
  | [] => rfl
  | [_] => rfl
  | _ :: _ :: _ => exact absurd hlen (by simp)

theorem C4_amended_witness :
    drawLayout2Dims [⟨100, 100⟩] [] 0 0 0 = .error "Layout 2 requires at least 2 images" :=
  C4_amended.1 [⟨100, 100⟩] [] 0 0 0 (by decide)

-- ─── Slot geometry (claim C5) ───

/-- A destination rectangle on the output canvas, in output pixel
coordinates (`{x, y, w, h}` as pushed onto `slots` in `splitmerge.js`). -/
structure Slot where
  x : ℚ
  y : ℚ
  w : ℚ
  h : ℚ
deriving DecidableEq

/-- A point lies inside a slot rectangle (half-open on the far edges). -/
def memSlot (s : Slot) (px py : ℚ) : Prop :=
  s.x ≤ px ∧ px < s.x + s.w ∧ s.y ≤ py ∧ py < s.y + s.h

instance (s : Slot) (px py : ℚ) : Decidable (memSlot s px py) := by
  unfold memSlot; infer_instance

/-- Slot list for layout '3' (Mixed: 2 top, 1 full-width bottom), from
`src/cli/splitmerge.js` lines 103–108. -/
def slots3 (outW outH gap : ℚ) : List Slot :=
  let hw := (outW - gap) / 2
  let hh := (outH - gap) / 2
  [⟨0, 0, hw, hh⟩, ⟨hw + gap, 0, hw, hh⟩, ⟨0, hh + gap, outW, hh⟩]

/-- Slot list for layout '4' (Grid 2×2), from `src/cli/splitmerge.js`
lines 109–115. -/
def slots4 (outW outH gap : ℚ) : List Slot :=
  let hw := (outW - gap) / 2
  let hh := (outH - gap) / 2
  [⟨0, 0, hw, hh⟩, ⟨hw + gap, 0, hw, hh⟩, ⟨0, hh + gap, hw, hh⟩, ⟨hw + gap, hh + gap, hw, hh⟩]

/-- Slot list for layouts 'custom' and '2' (rows×cols grid with rounded cell
coordinates), from `src/cli/splitmerge.js` lines 116–128. -/
def slotsGrid (gridRows gridCols : ℕ) (outW outH gap : ℚ) : List Slot :=
  let cellW := (outW - ((gridCols : ℚ) - 1) * gap) / (gridCols : ℚ)
  let cellH := (outH - ((gridRows : ℚ) - 1) * gap) / (gridRows : ℚ)
  (List.range gridRows).flatMap fun (r : ℕ) =>
    (List.range gridCols).map fun (c : ℕ) =>
      ⟨(jsRound ((c : ℚ) * (cellW + gap)) : ℚ),
       (jsRound ((r : ℚ) * (cellH + gap)) : ℚ),
       (jsRound cellW : ℚ),
       (jsRound cellH : ℚ)⟩

/-- No two distinct entries of the slot list share a point. -/
def slotsDisjoint (S : List Slot) : Prop :=
  S.Pairwise fun s t => ∀ px py : ℚ, ¬(memSlot s px py ∧ memSlot t px py)

/-- The point lies on the output canvas. -/
def inCanvas (outW outH px py : ℚ) : Prop :=
  0 ≤ px ∧ px < outW ∧ 0 ≤ py ∧ py < outH

/-- The gap strips of layout '4': the vertical band between the two columns
or the horizontal band between the two rows. -/
def gapStrip4 (outW outH gap px py : ℚ) : Prop :=
  ((outW - gap) / 2 ≤ px ∧ px < (outW - gap) / 2 + gap) ∨
  ((outH - gap) / 2 ≤ py ∧ py < (outH - gap) / 2 + gap)

/-- The gap strips of layout '3': the vertical band between the two top
cells (only above the bottom row) or the horizontal band between the top
row and the full-width bottom slot. -/
def gapStrip3 (outW outH gap px py : ℚ) : Prop :=
  (py < (outH - gap) / 2 ∧ (outW - gap) / 2 ≤ px ∧ px < (outW - gap) / 2 + gap) ∨
  ((outH - gap) / 2 ≤ py ∧ py < (outH - gap) / 2 + gap)

/-- The gap strips of a rows×cols grid with integral cell sizes `cw × ch`:
the vertical band after column `k` or the horizontal band after row `k`. -/
def gapStripGrid (gridRows gridCols cw ch gap : ℕ) (px py : ℚ) : Prop :=
  (∃ k : ℕ, k + 1 < gridCols ∧
    ((k : ℚ) + 1) * (cw : ℚ) + (k : ℚ) * (gap : ℚ) ≤ px ∧
    px < ((k : ℚ) + 1) * ((cw : ℚ) + (gap : ℚ))) ∨
  (∃ k : ℕ, k + 1 < gridRows ∧
    ((k : ℚ) + 1) * (ch : ℚ) + (k : ℚ) * (gap : ℚ) ≤ py ∧
    py < ((k : ℚ) + 1) * ((ch : ℚ) + (gap : ℚ)))

/-- Claim C5 fails: on a 1×4 custom grid over a 10×10 canvas with gap 0 the
cell width is 2.5, the rounded slots are `[0,3)`, `[3,6)`, `[5,8)`, `[8,11)`
wide, and slots 1 and 2 both contain the pixel (5,0) — the slot rectangles
overlap. -/
theorem C5_counterexample :
    slotsGrid 1 4 10 10 0 =
      [⟨0, 0, 3, 10⟩, ⟨3, 0, 3, 10⟩, ⟨5, 0, 3, 10⟩, ⟨8, 0, 3, 10⟩] ∧
    memSlot ⟨3, 0, 3, 10⟩ 5 0 ∧ memSlot ⟨5, 0, 3, 10⟩ 5 0 ∧
    ¬ slotsDisjoint (slotsGrid 1 4 10 10 0) := by
  have hlist : slotsGrid 1 4 10 10 0 =
      [⟨0, 0, 3, 10⟩, ⟨3, 0, 3, 10⟩, ⟨5, 0, 3, 10⟩, ⟨8, 0, 3, 10⟩] := by
    unfold slotsGrid
    norm_num [List.range_succ, jsRound]
  refine ⟨hlist, by norm_num [memSlot], by norm_num [memSlot], ?_⟩
  intro hdisj
  rw [slotsDisjoint, hlist] at hdisj
  rcases List.pairwise_cons.mp hdisj with ⟨_, h1⟩
  rcases List.pairwise_cons.mp h1 with ⟨h2, _⟩
  have h3 := h2 ⟨5, 0, 3, 10⟩ (by simp)
  exact h3 5 0 ⟨by norm_num [memSlot], by norm_num [memSlot]⟩

/-- The grid slot list in the special case where the cell sizes are whole
numbers `cw × ch`: then rounding is the identity and slot `(r, c)` sits at
`(c*(cw+gap), r*(ch+gap))`. -/
def gridSlotsInt (gridRows gridCols cw ch gap : ℕ) : List Slot :=
  (List.range gridRows).flatMap fun r =>
    (List.range gridCols).map fun c =>
      ⟨((c * (cw + gap) : ℕ) : ℚ), ((r * (ch + gap) : ℕ) : ℚ), (cw : ℚ), (ch : ℚ)⟩

lemma jsRound_nat_mul_add (c a b : ℕ) :
    jsRound ((c : ℚ) * (((a : ℚ) + (b : ℚ)))) = (c * (a + b) : ℕ) := by
  rw [show ((c : ℚ) * (((a : ℚ) + (b : ℚ)))) = (((c * (a + b) : ℕ) : ℚ)) by push_cast; ring,
    jsRound_natCast]

/-- When the available spans divide evenly (`outW = cols*cw + (cols-1)*gap`,
`outH = rows*ch + (rows-1)*gap`), the rounded grid slots coincide with the
exact integral grid. -/
lemma slotsGrid_integral (gridRows gridCols cw ch gap : ℕ)
    (hr : 0 < gridRows) (hc : 0 < gridCols) :
    slotsGrid gridRows gridCols
      ((gridCols : ℚ) * cw + ((gridCols : ℚ) - 1) * gap)
      ((gridRows : ℚ) * ch + ((gridRows : ℚ) - 1) * gap) gap
      = gridSlotsInt gridRows gridCols cw ch gap := by
  have hcQ : ((gridCols : ℚ)) ≠ 0 := Nat.cast_ne_zero.mpr hc.ne'
  have hrQ : ((gridRows : ℚ)) ≠ 0 := Nat.cast_ne_zero.mpr hr.ne'
  have hcellW : ((gridCols : ℚ) * cw + ((gridCols : ℚ) - 1) * gap -
      ((gridCols : ℚ) - 1) * gap) / (gridCols : ℚ) = (cw : ℚ) := by
    field_simp
  have hcellH : ((gridRows : ℚ) * ch + ((gridRows : ℚ) - 1) * gap -
      ((gridRows : ℚ) - 1) * gap) / (gridRows : ℚ) = (ch : ℚ) := by
    field_simp
  simp only [slotsGrid]
  rw [hcellW, hcellH]
  unfold gridSlotsInt
  refine congrArg _ (funext fun r => ?_)
  refine congrFun (congrArg List.map (funext fun c => ?_)) _
  simp [jsRound_nat_mul_add, jsRound_natCast]

lemma mem_gridSlotsInt {gridRows gridCols cw ch gap : ℕ} {s : Slot} :
    s ∈ gridSlotsInt gridRows gridCols cw ch gap ↔
      ∃ r, r < gridRows ∧ ∃ c, c < gridCols ∧
        s = ⟨((c * (cw + gap) : ℕ) : ℚ), ((r * (ch + gap) : ℕ) : ℚ), (cw : ℚ), (ch : ℚ)⟩ := by
  simp only [gridSlotsInt, List.mem_flatMap, List.mem_map, List.mem_range]
  constructor
  · rintro ⟨r, hr, c, hc, rfl⟩
    exact ⟨r, hr, c, hc, rfl⟩
  · rintro ⟨r, hr, c, hc, rfl⟩
    exact ⟨r, hr, c, hc, rfl⟩

/-- Integral grid slots in distinct columns are horizontally separated. -/
lemma gridSlotsInt_col_sep {cw gap : ℕ} {c c' : ℕ} (h : c < c') (px : ℚ)
    (h1 : px < ((c * (cw + gap) : ℕ) : ℚ) + cw)
    (h2 : ((c' * (cw + gap) : ℕ) : ℚ) ≤ px) : False := by
  have hnat : c * (cw + gap) + cw ≤ c' * (cw + gap) := by
    calc c * (cw + gap) + cw ≤ c * (cw + gap) + (cw + gap) := by omega
      _ = (c + 1) * (cw + gap) := by ring
      _ ≤ c' * (cw + gap) := Nat.mul_le_mul_right _ h
  have hq : ((c * (cw + gap) : ℕ) : ℚ) + cw ≤ ((c' * (cw + gap) : ℕ) : ℚ) := by
    exact_mod_cast hnat
  linarith

/-- The integral grid slots never overlap. -/
lemma gridSlotsInt_disjoint (gridRows gridCols cw ch gap : ℕ) :
    slotsDisjoint (gridSlotsInt gridRows gridCols cw ch gap) := by
  unfold slotsDisjoint gridSlotsInt
  rw [List.flatMap_def, List.pairwise_flatten]
  constructor
  · intro l hl
    obtain ⟨r, _, rfl⟩ := List.mem_map.mp hl
    rw [List.pairwise_map]
    refine (List.pairwise_lt_range gridCols).imp ?_
    intro c c' hlt px py hmem
    simp only [memSlot] at hmem
    obtain ⟨⟨_, a2, _, _⟩, ⟨b1, _, _, _⟩⟩ := hmem
    exact gridSlotsInt_col_sep hlt px a2 b1
  · rw [List.pairwise_map]
    refine (List.pairwise_lt_range gridRows).imp ?_
    intro r r' hlt x hx y hy px py hmem
    obtain ⟨c, _, rfl⟩ := List.mem_map.mp hx
    obtain ⟨c', _, rfl⟩ := List.mem_map.mp hy
    simp only [memSlot] at hmem
    obtain ⟨⟨_, _, _, a4⟩, ⟨_, _, b3, _⟩⟩ := hmem
    exact @gridSlotsInt_col_sep ch gap r r' hlt py a4 b3

/-- One-dimensional decomposition of the canvas span into cell bands and gap
bands: every coordinate in `[0, N*cw + (N-1)*gap)` lies in cell `c`'s span
or in the gap band after some cell `k` (with `k+1 < N`). -/
lemma band_cases (N cw gap : ℕ) (hN : 0 < N) (hcw : 0 < cw) (x : ℚ)
    (h0 : 0 ≤ x) (hx : x < (N : ℚ) * cw + ((N : ℚ) - 1) * gap) :
    (∃ c : ℕ, c < N ∧ ((c * (cw + gap) : ℕ) : ℚ) ≤ x ∧
      x < ((c * (cw + gap) : ℕ) : ℚ) + cw) ∨
    (∃ k : ℕ, k + 1 < N ∧ ((k : ℚ) + 1) * cw + (k : ℚ) * gap ≤ x ∧
      x < ((k : ℚ) + 1) * ((cw : ℚ) + gap)) := by
  have hcwQ : (0 : ℚ) < cw := by exact_mod_cast hcw
  have hgapQ : (0 : ℚ) ≤ gap := by positivity
  have hu0 : 0 < (cw : ℚ) + gap := by linarith
  have hfl : 0 ≤ x / ((cw : ℚ) + gap) := by positivity
  have hc0 : 0 ≤ ⌊x / ((cw : ℚ) + gap)⌋ := Int.le_floor.mpr (by exact_mod_cast hfl)
  lift ⌊x / ((cw : ℚ) + gap)⌋ to ℕ using hc0 with c hcdef
  have hcl : (c : ℚ) * ((cw : ℚ) + gap) ≤ x := by
    have h1 : ((c : ℚ)) ≤ x / ((cw : ℚ) + gap) := by
      rw [show ((c : ℚ)) = (((c : ℕ) : ℤ) : ℚ) by push_cast; ring, hcdef]
      exact Int.floor_le _
    calc (c : ℚ) * ((cw : ℚ) + gap) ≤ (x / ((cw : ℚ) + gap)) * ((cw : ℚ) + gap) :=
          mul_le_mul_of_nonneg_right h1 (le_of_lt hu0)
      _ = x := div_mul_cancel₀ x (ne_of_gt hu0)
  have hcu : x < ((c : ℚ) + 1) * ((cw : ℚ) + gap) := by
    have h1 : x / ((cw : ℚ) + gap) < (c : ℚ) + 1 := by
      rw [show ((c : ℚ) + 1) = ((((c : ℕ) : ℤ) : ℚ) + 1) by push_cast; ring, hcdef]
      exact Int.lt_floor_add_one _
    calc x = (x / ((cw : ℚ) + gap)) * ((cw : ℚ) + gap) :=
          (div_mul_cancel₀ x (ne_of_gt hu0)).symm
      _ < ((c : ℚ) + 1) * ((cw : ℚ) + gap) := mul_lt_mul_of_pos_right h1 hu0
  have hcN : c < N := by
    have h1 : x / ((cw : ℚ) + gap) < (N : ℚ) := by
      rw [div_lt_iff₀ hu0]
      have hexp : (N : ℚ) * ((cw : ℚ) + gap) = (N : ℚ) * cw + ((N : ℚ) - 1) * gap + gap := by
        ring
      linarith
    have h2 : ⌊x / ((cw : ℚ) + gap)⌋ < (N : ℤ) := Int.floor_lt.mpr (by exact_mod_cast h1)
    rw [← hcdef] at h2
    exact_mod_cast h2
  by_cases hcase : x < (c : ℚ) * ((cw : ℚ) + gap) + cw
  · left
    refine ⟨c, hcN, ?_, ?_⟩
    · rw [show (((c * (cw + gap) : ℕ)) : ℚ) = (c : ℚ) * ((cw : ℚ) + gap) by push_cast; ring]
      exact hcl
    · rw [show (((c * (cw + gap) : ℕ)) : ℚ) = (c : ℚ) * ((cw : ℚ) + gap) by push_cast; ring]
      exact hcase
  · right
    push_neg at hcase
    have hcN' : c + 1 < N := by
      rcases lt_or_eq_of_le (Nat.succ_le_of_lt hcN) with h | h
      · exact h
      · exfalso
        have hNQ : ((N : ℚ)) = (c : ℚ) + 1 := by
          rw [← h]; push_cast; ring
        have hexp : (N : ℚ) * cw + ((N : ℚ) - 1) * gap =
            (c : ℚ) * ((cw : ℚ) + gap) + cw := by
          rw [hNQ]; ring
        rw [hexp] at hx
        linarith
    refine ⟨c, hcN', ?_, ?_⟩
    · have hexp : ((c : ℚ) + 1) * cw + (c : ℚ) * gap =
          (c : ℚ) * ((cw : ℚ) + gap) + cw := by ring
      linarith
    · exact hcu

/-- A coordinate cannot lie both in a cell span and in a gap band. -/
lemma band_not_both {cw gap : ℕ} {c k : ℕ} {x : ℚ}
    (hcell : ((c * (cw + gap) : ℕ) : ℚ) ≤ x ∧ x < ((c * (cw + gap) : ℕ) : ℚ) + cw)
    (hband : ((k : ℚ) + 1) * cw + (k : ℚ) * gap ≤ x ∧
      x < ((k : ℚ) + 1) * ((cw : ℚ) + gap)) : False := by
  have hcwQ : (0 : ℚ) ≤ cw := by positivity
  have hgapQ : (0 : ℚ) ≤ gap := by positivity
  have hceq : ((c * (cw + gap) : ℕ) : ℚ) = (c : ℚ) * ((cw : ℚ) + gap) := by push_cast; ring
  rcases le_or_lt ((k : ℚ) + 1) (c : ℚ) with h | h
  · have h2 : ((k : ℚ) + 1) * ((cw : ℚ) + gap) ≤ (c : ℚ) * ((cw : ℚ) + gap) :=
      mul_le_mul_of_nonneg_right h (by linarith)
    rw [hceq] at hcell
    linarith [hband.2, hcell.1]
  · have hck : (c : ℚ) ≤ (k : ℚ) := by
      have : c < k + 1 := by exact_mod_cast h
      exact_mod_cast Nat.lt_succ_iff.mp this
    have h2 : (c : ℚ) * ((cw : ℚ) + gap) ≤ (k : ℚ) * ((cw : ℚ) + gap) :=
      mul_le_mul_of_nonneg_right hck (by linarith)
    rw [hceq] at hcell
    have : ((k : ℚ) + 1) * cw + (k : ℚ) * gap = (k : ℚ) * ((cw : ℚ) + gap) + cw := by ring
    linarith [hband.1, hcell.2]

/-- Pointwise coverage for the integral grid: a canvas point is in some slot
iff it is not in a gap strip. -/
lemma gridSlotsInt_cover (gridRows gridCols cw ch gap : ℕ)
    (hr : 0 < gridRows) (hc : 0 < gridCols) (hcw : 0 < cw) (hch : 0 < ch)
    (px py : ℚ)
    (hin : inCanvas ((gridCols : ℚ) * cw + ((gridCols : ℚ) - 1) * gap)
      ((gridRows : ℚ) * ch + ((gridRows : ℚ) - 1) * gap) px py) :
    (∃ s ∈ gridSlotsInt gridRows gridCols cw ch gap, memSlot s px py) ↔
      ¬ gapStripGrid gridRows gridCols cw ch gap px py := by
  obtain ⟨hpx0, hpxW, hpy0, hpyH⟩ := hin
  constructor
  · rintro ⟨s, hs, hmem⟩ hgap
    obtain ⟨r, hrlt, c, hclt, rfl⟩ := mem_gridSlotsInt.mp hs
    simp only [memSlot] at hmem
    obtain ⟨m1, m2, m3, m4⟩ := hmem
    rcases hgap with ⟨k, _, hb1, hb2⟩ | ⟨k, _, hb1, hb2⟩
    · exact band_not_both ⟨m1, m2⟩ ⟨hb1, hb2⟩
    · exact band_not_both ⟨m3, m4⟩ ⟨hb1, hb2⟩
  · intro hgap
    rcases band_cases gridCols cw gap hc hcw px hpx0 hpxW with hx | hx
    · rcases band_cases gridRows ch gap hr hch py hpy0 hpyH with hy | hy
      · obtain ⟨c, hclt, hc1, hc2⟩ := hx
        obtain ⟨r, hrlt, hr1, hr2⟩ := hy
        refine ⟨⟨((c * (cw + gap) : ℕ) : ℚ), ((r * (ch + gap) : ℕ) : ℚ), (cw : ℚ), (ch : ℚ)⟩,
          mem_gridSlotsInt.mpr ⟨r, hrlt, c, hclt, rfl⟩, ?_⟩
        exact ⟨hc1, hc2, hr1, hr2⟩
      · exact absurd (Or.inr hy) hgap
    · exact absurd (Or.inl hx) hgap

lemma slots3_disjoint (outW outH gap : ℚ) (hg : 0 ≤ gap) :
    slotsDisjoint (slots3 outW outH gap) := by
  unfold slotsDisjoint slots3
  refine List.Pairwise.cons ?_ (List.Pairwise.cons ?_ (List.Pairwise.cons ?_ List.Pairwise.nil))
  all_goals
    intro t ht px py hmem
    simp only [memSlot] at hmem
    simp only [List.mem_cons, List.mem_singleton, List.not_mem_nil, or_false] at ht
  · rcases ht with rfl | rfl
    · obtain ⟨⟨_, a2, _, _⟩, ⟨b1, _, _, _⟩⟩ := hmem
      simp only at a2 b1
      linarith
    · obtain ⟨⟨_, _, _, a4⟩, ⟨_, _, b3, _⟩⟩ := hmem
      simp only at a4 b3
      linarith
  · rcases ht with rfl
    obtain ⟨⟨_, _, _, a4⟩, ⟨_, _, b3, _⟩⟩ := hmem
    simp only at a4 b3
    linarith

lemma slots4_disjoint (outW outH gap : ℚ) (hg : 0 ≤ gap) :
    slotsDisjoint (slots4 outW outH gap) := by
  unfold slotsDisjoint slots4
  refine List.Pairwise.cons ?_ (List.Pairwise.cons ?_
    (List.Pairwise.cons ?_ (List.Pairwise.cons ?_ List.Pairwise.nil)))
  all_goals
    intro t ht px py hmem
    simp only [memSlot] at hmem
    simp only [List.mem_cons, List.mem_singleton, List.not_mem_nil, or_false] at ht
  · rcases ht with rfl | rfl | rfl
    · obtain ⟨⟨_, a2, _, _⟩, ⟨b1, _, _, _⟩⟩ := hmem
      simp only at a2 b1
      linarith
    · obtain ⟨⟨_, _, _, a4⟩, ⟨_, _, b3, _⟩⟩ := hmem
      simp only at a4 b3
      linarith
    · obtain ⟨⟨_, a2, _, _⟩, ⟨b1, _, _, _⟩⟩ := hmem
      simp only at a2 b1
      linarith
  · rcases ht with rfl | rfl
    · obtain ⟨⟨a1, _, _, _⟩, ⟨_, b2, _, _⟩⟩ := hmem
      simp only at a1 b2
      linarith
    · obtain ⟨⟨_, _, _, a4⟩, ⟨_, _, b3, _⟩⟩ := hmem
      simp only at a4 b3
      linarith
  · rcases ht with rfl
    obtain ⟨⟨_, a2, _, _⟩, ⟨b1, _, _, _⟩⟩ := hmem
    simp only at a2 b1
    linarith

lemma slots3_cover (outW outH gap : ℚ) (hg : 0 ≤ gap) (hgw : gap ≤ outW) (hgh : gap ≤ outH)
    (px py : ℚ) (hin : inCanvas outW outH px py) :
    (∃ s ∈ slots3 outW outH gap, memSlot s px py) ↔ ¬ gapStrip3 outW outH gap px py := by
  obtain ⟨hpx0, hpxW, hpy0, hpyH⟩ := hin
  have hWsum : (outW - gap) / 2 + gap + (outW - gap) / 2 = outW := by ring
  have hHsum : (outH - gap) / 2 + gap + (outH - gap) / 2 = outH := by ring
  constructor
  · rintro ⟨s, hs, hmem⟩ hgap
    simp only [slots3, List.mem_cons, List.mem_singleton, List.not_mem_nil, or_false] at hs
    simp only [memSlot] at hmem
    rcases hs with rfl | rfl | rfl <;>
      obtain ⟨m1, m2, m3, m4⟩ := hmem <;> simp only at m1 m2 m3 m4 <;>
      rcases hgap with ⟨g1, g2, g3⟩ | ⟨g1, g2⟩ <;> linarith
  · intro hgap
    rw [gapStrip3, not_or] at hgap
    obtain ⟨hgv, hgh'⟩ := hgap
    rcases lt_or_le py ((outH - gap) / 2) with hy | hy
    · rcases lt_or_le px ((outW - gap) / 2) with hx | hx
      · refine ⟨⟨0, 0, (outW - gap) / 2, (outH - gap) / 2⟩, by simp [slots3], ?_⟩
        exact ⟨hpx0, by simpa using hx, hpy0, by simpa using hy⟩
      · have hx2 : (outW - gap) / 2 + gap ≤ px := by
          by_contra hlt
          push_neg at hlt
          exact hgv ⟨hy, hx, hlt⟩
        refine ⟨⟨(outW - gap) / 2 + gap, 0, (outW - gap) / 2, (outH - gap) / 2⟩,
          by simp [slots3], ?_⟩
        refine ⟨hx2, ?_, hpy0, by simpa using hy⟩
        simp only
        linarith
    · have hy2 : (outH - gap) / 2 + gap ≤ py := by
        by_contra hlt
        push_neg at hlt
        exact hgh' ⟨hy, hlt⟩
      refine ⟨⟨0, (outH - gap) / 2 + gap, outW, (outH - gap) / 2⟩, by simp [slots3], ?_⟩
      refine ⟨hpx0, by simpa using hpxW, hy2, ?_⟩
      simp only
      linarith

lemma slots4_cover (outW outH gap : ℚ) (hg : 0 ≤ gap) (hgw : gap ≤ outW) (hgh : gap ≤ outH)
    (px py : ℚ) (hin : inCanvas outW outH px py) :
    (∃ s ∈ slots4 outW outH gap, memSlot s px py) ↔ ¬ gapStrip4 outW outH gap px py := by
  obtain ⟨hpx0, hpxW, hpy0, hpyH⟩ := hin
  have hWsum : (outW - gap) / 2 + gap + (outW - gap) / 2 = outW := by ring
  have hHsum : (outH - gap) / 2 + gap + (outH - gap) / 2 = outH := by ring
  constructor
  · rintro ⟨s, hs, hmem⟩ hgap
    simp only [slots4, List.mem_cons, List.mem_singleton, List.not_mem_nil, or_false] at hs
    simp only [memSlot] at hmem
    rcases hs with rfl | rfl | rfl | rfl <;>
      obtain ⟨m1, m2, m3, m4⟩ := hmem <;> simp only at m1 m2 m3 m4 <;>
      rcases hgap with ⟨g1, g2⟩ | ⟨g1, g2⟩ <;> linarith
  · intro hgap
    rw [gapStrip4, not_or] at hgap
    obtain ⟨hgv, hgh'⟩ := hgap
    have hxcase : px < (outW - gap) / 2 ∨ (outW - gap) / 2 + gap ≤ px := by
      rcases lt_or_le px ((outW - gap) / 2) with hx | hx
      · exact Or.inl hx
      · right
        by_contra hlt
        push_neg at hlt
        exact hgv ⟨hx, hlt⟩
    have hycase : py < (outH - gap) / 2 ∨ (outH - gap) / 2 + gap ≤ py := by
      rcases lt_or_le py ((outH - gap) / 2) with hy | hy
      · exact Or.inl hy
      · right
        by_contra hlt
        push_neg at hlt
        exact hgh' ⟨hy, hlt⟩
    rcases hxcase with hx | hx <;> rcases hycase with hy | hy
    · refine ⟨⟨0, 0, (outW - gap) / 2, (outH - gap) / 2⟩, by simp [slots4], ?_⟩
      exact ⟨hpx0, by simpa using hx, hpy0, by simpa using hy⟩
    · refine ⟨⟨0, (outH - gap) / 2 + gap, (outW - gap) / 2, (outH - gap) / 2⟩,
        by simp [slots4], ?_⟩
      refine ⟨hpx0, by simpa using hx, hy, ?_⟩
      simp only
      linarith
    · refine ⟨⟨(outW - gap) / 2 + gap, 0, (outW - gap) / 2, (outH - gap) / 2⟩,
        by simp [slots4], ?_⟩
      refine ⟨hx, ?_, hpy0, by simpa using hy⟩
      simp only
      linarith
    · refine ⟨⟨(outW - gap) / 2 + gap, (outH - gap) / 2 + gap, (outW - gap) / 2,
        (outH - gap) / 2⟩, by simp [slots4], ?_⟩
      refine ⟨hx, ?_, hy, ?_⟩ <;> simp only <;> linarith

/-- Claim C5 amended: the Mixed ('3') and Grid2x2 ('4') slot lists, whose
coordinates are exact halves, are pairwise disjoint and cover the canvas
minus the gap strips for every `0 ≤ gap ≤ min(outW, outH)`; the rounded
custom/Split grid slot list satisfies the same two properties provided the
cell sizes are whole numbers (`outW = cols*cw + (cols-1)*gap`,
`outH = rows*ch + (rows-1)*gap`); with fractional cells the rounded slots
can overlap (see the counterexample). The spec's Grid2x2 example holds:
gap 20 on a 3000×3000 canvas gives four 1490-px cells tiling the canvas. -/
theorem C5_amended :
    (∀ gridRows gridCols cw ch gap : ℕ,
      0 < gridRows → 0 < gridCols → 0 < cw → 0 < ch →
      slotsDisjoint (slotsGrid gridRows gridCols
        ((gridCols : ℚ) * cw + ((gridCols : ℚ) - 1) * gap)
        ((gridRows : ℚ) * ch + ((gridRows : ℚ) - 1) * gap) gap) ∧
      (∀ px py : ℚ,
        inCanvas ((gridCols : ℚ) * cw + ((gridCols : ℚ) - 1) * gap)
          ((gridRows : ℚ) * ch + ((gridRows : ℚ) - 1) * gap) px py →
        ((∃ s ∈ slotsGrid gridRows gridCols
            ((gridCols : ℚ) * cw + ((gridCols : ℚ) - 1) * gap)
            ((gridRows : ℚ) * ch + ((gridRows : ℚ) - 1) * gap) gap, memSlot s px py) ↔
          ¬ gapStripGrid gridRows gridCols cw ch gap px py))) ∧
    (∀ outW outH gap : ℚ, 0 ≤ gap → gap ≤ outW → gap ≤ outH →
      slotsDisjoint (slots3 outW outH gap) ∧
      (∀ px py : ℚ, inCanvas outW outH px py →
        ((∃ s ∈ slots3 outW outH gap, memSlot s px py) ↔
          ¬ gapStrip3 outW outH gap px py))) ∧
    (∀ outW outH gap : ℚ, 0 ≤ gap → gap ≤ outW → gap ≤ outH →
      slotsDisjoint (slots4 outW outH gap) ∧
      (∀ px py : ℚ, inCanvas outW outH px py →
        ((∃ s ∈ slots4 outW outH gap, memSlot s px py) ↔
          ¬ gapStrip4 outW outH gap px py))) ∧
    slots4 3000 3000 20 =
      [⟨0, 0, 1490, 1490⟩, ⟨1510, 0, 1490, 1490⟩,
       ⟨0, 1510, 1490, 1490⟩, ⟨1510, 1510, 1490, 1490⟩] ∧
    2 * (1490 : ℚ) + 20 = 3000 := by
  refine ⟨?_, ?_, ?_, ?_, by norm_num⟩
  · intro gridRows gridCols cw ch gap hr hc hcw hch
    rw [slotsGrid_integral gridRows gridCols cw ch gap hr hc]
    exact ⟨gridSlotsInt_disjoint gridRows gridCols cw ch gap,
      fun px py hin => gridSlotsInt_cover gridRows gridCols cw ch gap hr hc hcw hch px py hin⟩
  · intro outW outH gap hg hgw hgh
    exact ⟨slots3_disjoint outW outH gap hg,
      fun px py hin => slots3_cover outW outH gap hg hgw hgh px py hin⟩
  · intro outW outH gap hg hgw hgh
    exact ⟨slots4_disjoint outW outH gap hg,
      fun px py hin => slots4_cover outW outH gap hg hgw hgh px py hin⟩
  · norm_num [slots4]

theorem C5_amended_witness :
    slotsDisjoint (slotsGrid 2 2
      (((2 : ℕ) : ℚ) * ((1490 : ℕ) : ℚ) + (((2 : ℕ) : ℚ) - 1) * ((20 : ℕ) : ℚ))
      (((2 : ℕ) : ℚ) * ((1490 : ℕ) : ℚ) + (((2 : ℕ) : ℚ) - 1) * ((20 : ℕ) : ℚ))
      ((20 : ℕ) : ℚ)) :=
  (C5_amended.1 2 2 1490 1490 20 (by decide) (by decide) (by decide) (by decide)).1

-- ─── Batch grouping (claims C6, C7; src/src/ui/app.js) ───

/-- Byte-wise (code-point) lexicographic comparison of file names, the
ordering model for `a.name.localeCompare(b.name)` in `app.js`. -/
def nameLe : List Char → List Char → Bool
  | [], _ => true
  | _ :: _, [] => false
  | x :: xs, y :: ys =>
    if x.toNat < y.toNat then true
    else if y.toNat < x.toNat then false
    else nameLe xs ys

/-- The name ordering as a relation on strings. -/
def NLe (a b : String) : Prop := nameLe a.toList b.toList = true

instance : DecidableRel NLe :=
  fun a b => inferInstanceAs (Decidable (nameLe a.toList b.toList = true))

lemma nameLe_total : ∀ a b : List Char, nameLe a b = true ∨ nameLe b a = true
  | [], _ => Or.inl rfl
  | _ :: _, [] => Or.inr rfl
  | x :: xs, y :: ys => by
    rcases Nat.lt_trichotomy x.toNat y.toNat with h | h | h
    · left; simp [nameLe, h]
    · have hxy : ¬ x.toNat < y.toNat := by omega
      have hyx : ¬ y.toNat < x.toNat := by omega
      rcases nameLe_total xs ys with ih | ih
      · left; simp [nameLe, hxy, hyx, ih]
      · right; simp [nameLe, hxy, hyx, ih]
    · right; simp [nameLe, h]

lemma nameLe_trans : ∀ a b c : List Char,
    nameLe a b = true → nameLe b c = true → nameLe a c = true
  | [], _, _ => fun _ _ => rfl
  | x :: xs, [], _ => fun h _ => by simp [nameLe] at h
  | x :: xs, y :: ys, [] => fun _ h => by simp [nameLe] at h
  | x :: xs, y :: ys, z :: zs => fun h1 h2 => by
    simp only [nameLe] at h1 h2 ⊢
    rcases Nat.lt_trichotomy x.toNat y.toNat with hxy | hxy | hxy <;>
      rcases Nat.lt_trichotomy y.toNat z.toNat with hyz | hyz | hyz
    · simp [show x.toNat < z.toNat by omega]
    · simp [show x.toNat < z.toNat by omega]
    · simp [show ¬ y.toNat < z.toNat by omega, hyz] at h2
    · simp [show x.toNat < z.toNat by omega]
    · simp only [show ¬ x.toNat < y.toNat by omega, show ¬ y.toNat < x.toNat by omega,
        if_false, if_neg] at h1
      simp only [show ¬ y.toNat < z.toNat by omega, show ¬ z.toNat < y.toNat by omega,
        if_false, if_neg] at h2
      simp only [show ¬ x.toNat < z.toNat by omega, show ¬ z.toNat < x.toNat by omega,
        if_false, if_neg]
      exact nameLe_trans xs ys zs h1 h2
    · simp [show ¬ y.toNat < z.toNat by omega, hyz] at h2
    · simp [show ¬ x.toNat < y.toNat by omega, hxy] at h1
    · simp [show ¬ x.toNat < y.toNat by omega, hxy] at h1
    · simp [show ¬ x.toNat < y.toNat by omega, hxy] at h1

instance : IsTotal String NLe := ⟨fun a b => nameLe_total a.toList b.toList⟩

instance : IsTrans String NLe := ⟨fun a b c => nameLe_trans a.toList b.toList c.toList⟩

/-- Embedding of `name.replace(/\.[^/.]+$/, "")` — strip a final `.ext`
whose extension is nonempty and contains neither `.` nor `/`. -/
def stripExt (s : List Char) : List Char :=
  let r := s.reverse
  let tw := r.takeWhile fun c => (c != '.') && (c != '/')
  if tw ≠ [] ∧ (r.drop tw.length).head? = some '.' then
    ((r.drop tw.length).drop 1).reverse
  else s

/-- Embedding of JS `String.prototype.lastIndexOf` for a single character:
the greatest index holding `c`, or `-1` when absent. -/
def lastIndexOfZ (c : Char) : List Char → ℤ
  | [] => -1
  | a :: s =>
    let r := lastIndexOfZ c s
    if 0 ≤ r then r + 1 else if a = c then 0 else -1

/-- The group key computed by `groupFilesSmartly` in `src/src/ui/app.js`
lines 1216–1226: strip the extension, find the greatest index of `'_'`,
`' '` or `'-'` (JS `Math.max` of three `lastIndexOf` results), and keep the
part before it only when that index is positive (`if (lastIdx > 0)`). -/
def groupKey (name : String) : List Char :=
  let n := stripExt name.toList
  let i := max (max (lastIndexOfZ '_' n) (lastIndexOfZ ' ' n)) (lastIndexOfZ '-' n)
  if 0 < i then n.take i.toNat else n

/-- The key rule as claim C6 states it: everything before the last
occurrence of any separator, whenever a separator occurs at all (the whole
stripped name only when no separator is found). -/
def specSmartKeyOrig (name : String) : List Char :=
  let n := stripExt name.toList
  let i := max (max (lastIndexOfZ '_' n) (lastIndexOfZ ' ' n)) (lastIndexOfZ '-' n)
  if 0 ≤ i then n.take i.toNat else n

/-- The amended key rule: everything before the last separator occurrence
when that occurrence is at a positive index; the whole stripped name when no
separator is found or the last separator sits at index 0. -/
def specSmartKeyAmended (name : String) : List Char :=
  let n := stripExt name.toList
  let i := max (max (lastIndexOfZ '_' n) (lastIndexOfZ ' ' n)) (lastIndexOfZ '-' n)
  if 0 < i then n.take i.toNat else n

/-- Insertion into the key → files map, preserving first-appearance key
order and appending the file at the end of its key's list — the behaviour
of `map.get(base).push(f)` over a JS `Map`. -/
def insertGroup : List (List Char × List String) → List Char → String →
    List (List Char × List String)
  | [], k, f => [(k, [f])]
  | (k', fs) :: rest, k, f =>
    if k' = k then (k', fs ++ [f]) :: rest else (k', fs) :: insertGroup rest k f

/-- Build the key → files map by folding over the (sorted) file list. -/
def buildGroupsBy (key : String → List Char) (files : List String) :
    List (List Char × List String) :=
  files.foldl (fun m f => insertGroup m (key f) f) []

/-- Fuel-driven chunking helper (fuel strictly exceeds the list length). -/
def chunksExactAux {α : Type} : ℕ → ℕ → List α → List (List α)
  | 0, _, _ => []
  | fuel + 1, n, l =>
    if 0 < n ∧ n ≤ l.length then l.take n :: chunksExactAux fuel n (l.drop n)
    else []

/-- Chunk a list into consecutive runs of exactly `n`, discarding a final
partial run — the `for (i = 0; i < len; i += n) slice(i, i + n)` loops of
`app.js` (which keep a slice only when its length equals `n`). -/
def chunksExact {α : Type} (n : ℕ) (l : List α) : List (List α) :=
  chunksExactAux (l.length + 1) n l

/-- The smart-grouping pipeline of `groupFilesSmartly` (`app.js` lines
1210–1242), parameterized by the key function: sort by name, group by key in
a `Map`, then chunk each key's collection into runs of exactly `n`. -/
def smartPipeline (key : String → List Char) (files : List String) (n : ℕ) :
    List (List String) :=
  let sorted := List.insertionSort NLe files
  let m := buildGroupsBy key sorted
  m.flatMap fun kg => if n ≤ kg.2.length then chunksExact n kg.2 else []

/-- Embedding of `groupFilesSmartly` from `src/src/ui/app.js`. -/
def groupFilesSmartly (files : List String) (n : ℕ) : List (List String) :=
  smartPipeline groupKey files n

/-- Smart grouping as claim C6 literally states the key rule. -/
def specSmartGroupsOrig (files : List String) (n : ℕ) : List (List String) :=
  smartPipeline specSmartKeyOrig files n

/-- Smart grouping under the amended key rule. -/
def specSmartGroupsAmended (files : List String) (n : ℕ) : List (List String) :=
  smartPipeline specSmartKeyAmended files n

/-- Embedding of the sequential-mode grouping branch of `handleBatchDrop`
(`src/src/ui/app.js` lines 1192–1199): chunk the dropped file list in its
given order; no sorting happens in this branch. -/
def sequentialGroups (files : List String) (n : ℕ) : List (List String) :=
  chunksExact n files

/-- Sequential grouping as claim C7 states it: sort lexicographically by
name first, then chunk. -/
def specSequentialGroups (files : List String) (n : ℕ) : List (List String) :=
  chunksExact n (List.insertionSort NLe files)

/-- Claim C6 fails on the key rule: for `"_L.png"` and `"_R.png"` the last
separator sits at index 0, the claim's rule gives both files the empty key
(one group of two), but the code keeps the whole stripped name (`if
(lastIdx > 0)`), gives them distinct keys, and emits no group. -/
theorem C6_counterexample :
    groupFilesSmartly ["_L.png", "_R.png"] 2 = [] ∧
    specSmartGroupsOrig ["_L.png", "_R.png"] 2 = [["_L.png", "_R.png"]] := by
  constructor <;> decide

/-- Claim C7 fails: the sequential branch chunks the files in their given
order without sorting, so dropping `["b.png", "a.png"]` with group size 2
yields the unsorted group `[b, a]` whereas the claim's sort-then-chunk rule
yields `[a, b]`. -/
theorem C7_counterexample :
    sequentialGroups ["b.png", "a.png"] 2 = [["b.png", "a.png"]] ∧
    specSequentialGroups ["b.png", "a.png"] 2 = [["a.png", "b.png"]] ∧
    sequentialGroups ["b.png", "a.png"] 2 ≠
      specSequentialGroups ["b.png", "a.png"] 2 := by
  refine ⟨?_, ?_, ?_⟩ <;> decide

lemma chunksExactAux_mem {α : Type} {g : List α} :
    ∀ (fuel n : ℕ) (l : List α), l.length < fuel →
      g ∈ chunksExactAux fuel n l → g.length = n ∧ g.Sublist l := by
  intro fuel
  induction fuel with
  | zero => intro n l h; omega
  | succ fuel ih =>
    intro n l hlt hg
    rw [chunksExactAux] at hg
    split at hg
    · next hcond =>
      obtain ⟨hn, hnl⟩ := hcond
      rcases List.mem_cons.mp hg with rfl | hg'
      · constructor
        · simp [List.length_take]
          omega
        · exact List.take_sublist n l
      · have hdrop : (l.drop n).length < fuel := by
          simp only [List.length_drop]
          omega
        obtain ⟨hlen, hsub⟩ := ih n (l.drop n) hdrop hg'
        exact ⟨hlen, hsub.trans (List.drop_sublist n l)⟩
    · exact absurd hg (List.not_mem_nil g)

lemma chunksExact_mem {α : Type} {g : List α} {n : ℕ} {l : List α}
    (hg : g ∈ chunksExact n l) : g.length = n ∧ g.Sublist l :=
  chunksExactAux_mem (l.length + 1) n l (by omega) hg

lemma chunksExactAux_flatten {α : Type} :
    ∀ (fuel n : ℕ) (l : List α), l.length < fuel →
      (chunksExactAux fuel n l).flatten = l.take ((l.length / n) * n) := by
  intro fuel
  induction fuel with
  | zero => intro n l h; omega
  | succ fuel ih =>
    intro n l hlt
    rw [chunksExactAux]
    split
    · next hcond =>
      obtain ⟨hn, hnl⟩ := hcond
      have hdrop : (l.drop n).length < fuel := by
        simp only [List.length_drop]
        omega
      rw [List.flatten_cons, ih n (l.drop n) hdrop]
      have hdiv : l.length / n = (l.length - n) / n + 1 := Nat.div_eq_sub_div hn hnl
      rw [List.length_drop, hdiv]
      rw [show ((l.length - n) / n + 1) * n = n + ((l.length - n) / n) * n by ring]
      rw [List.take_add]
    · next hcond =>
      have : l.length / n * n = 0 := by
        rcases Nat.eq_zero_or_pos n with h0 | hpos
        · simp [h0]
        · have : l.length < n := by omega
          simp [Nat.div_eq_of_lt this]
      rw [this]
      simp

lemma chunksExact_flatten {α : Type} (n : ℕ) (l : List α) :
    (chunksExact n l).flatten = l.take ((l.length / n) * n) :=
  chunksExactAux_flatten (l.length + 1) n l (by omega)

lemma insertGroup_cases {e : List Char × List String} :
    ∀ (m : List (List Char × List String)) (k : List Char) (f : String),
      e ∈ insertGroup m k f →
      (∃ e' ∈ m, e.1 = e'.1 ∧ (e.2 = e'.2 ∨ (e.1 = k ∧ e.2 = e'.2 ++ [f]))) ∨
      e = (k, [f])
  | [], k, f => by
    intro he
    simp only [insertGroup, List.mem_singleton] at he
    exact Or.inr he
  | (k', fs) :: rest, k, f => by
    intro he
    simp only [insertGroup] at he
    split at he
    · next heq =>
      rcases List.mem_cons.mp he with rfl | he'
      · exact Or.inl ⟨(k', fs), List.mem_cons_self _ _, rfl, Or.inr ⟨heq, rfl⟩⟩
      · exact Or.inl ⟨e, List.mem_cons_of_mem _ he', rfl, Or.inl rfl⟩
    · rcases List.mem_cons.mp he with rfl | he'
      · exact Or.inl ⟨(k', fs), List.mem_cons_self _ _, rfl, Or.inl rfl⟩
      · rcases insertGroup_cases rest k f he' with ⟨e', he'', h1, h2⟩ | h
        · exact Or.inl ⟨e', List.mem_cons_of_mem _ he'', h1, h2⟩
        · exact Or.inr h

/-- Invariant of the fold that builds the key → files map from an already
sorted file list: every entry's file list is sorted and holds exactly files
of that entry's key. -/
lemma buildGroupsBy_invariant (key : String → List Char) :
    ∀ (l : List String) (m : List (List Char × List String)),
      List.Sorted NLe l →
      (∀ e ∈ m, List.Sorted NLe e.2) →
      (∀ e ∈ m, ∀ f ∈ e.2, ∀ g ∈ l, NLe f g) →
      (∀ e ∈ m, ∀ f ∈ e.2, key f = e.1) →
      ∀ e ∈ List.foldl (fun m f => insertGroup m (key f) f) m l,
        List.Sorted NLe e.2 ∧ ∀ f ∈ e.2, key f = e.1
  | [], m => by
    intro _ hsorted hbound hkey e he
    exact ⟨hsorted e he, hkey e he⟩
  | f :: l', m => by
    intro hl hsorted hbound hkey e he
    rw [List.foldl_cons] at he
    obtain ⟨hf_le, hl'⟩ := List.sorted_cons.mp hl
    refine buildGroupsBy_invariant key l' (insertGroup m (key f) f) hl' ?_ ?_ ?_ e he
    · intro e' he'
      rcases insertGroup_cases m (key f) f he' with ⟨e'', he'', _, hcase⟩ | rfl
      · rcases hcase with heq | ⟨_, heq⟩
        · rw [heq]; exact hsorted e'' he''
        · rw [heq, List.Sorted, List.pairwise_append]
          refine ⟨hsorted e'' he'', List.pairwise_singleton _ _, ?_⟩
          intro a ha b hb
          rw [List.mem_singleton] at hb
          rw [hb]
          exact hbound e'' he'' a ha f (List.mem_cons_self _ _)
      · exact List.sorted_singleton _
    · intro e' he' f' hf' g hg
      rcases insertGroup_cases m (key f) f he' with ⟨e'', he'', _, hcase⟩ | rfl
      · rcases hcase with heq | ⟨_, heq⟩
        · rw [heq] at hf'
          exact hbound e'' he'' f' hf' g (List.mem_cons_of_mem _ hg)
        · rw [heq] at hf'
          rcases List.mem_append.mp hf' with hf'' | hf''
          · exact hbound e'' he'' f' hf'' g (List.mem_cons_of_mem _ hg)
          · rw [List.mem_singleton] at hf''
            subst hf''
            exact hf_le g hg
      · rw [List.mem_singleton] at hf'
        subst hf'
        exact hf_le g hg
    · intro e' he' f' hf'
      rcases insertGroup_cases m (key f) f he' with ⟨e'', he'', h1, hcase⟩ | rfl
      · rcases hcase with heq | ⟨hk, heq⟩
        · rw [heq] at hf'
          rw [h1]
          exact hkey e'' he'' f' hf'
        · rw [heq] at hf'
          rcases List.mem_append.mp hf' with hf'' | hf''
          · rw [h1]
            exact hkey e'' he'' f' hf''
          · rw [List.mem_singleton] at hf''
            subst hf''
            rw [hk]
      · rw [List.mem_singleton] at hf'
        subst hf'
        rfl

/-- Every group that `groupFilesSmartly` emits has exactly `n` files, in
sorted name order, all sharing one group key. -/
lemma groupFilesSmartly_groups (files : List String) (n : ℕ) (g : List String)
    (hg : g ∈ groupFilesSmartly files n) :
    g.length = n ∧ List.Sorted NLe g ∧
      ∀ f1 ∈ g, ∀ f2 ∈ g, groupKey f1 = groupKey f2 := by
  rw [groupFilesSmartly, smartPipeline] at hg
  simp only [List.mem_flatMap] at hg
  obtain ⟨kg, hkg, hg'⟩ := hg
  split at hg'
  · obtain ⟨hlen, hsub⟩ := chunksExact_mem hg'
    have hentry := buildGroupsBy_invariant groupKey (List.insertionSort NLe files) []
      (List.sorted_insertionSort NLe files) (by simp) (by simp) (by simp) kg hkg
    refine ⟨hlen, hentry.1.sublist hsub, ?_⟩
    intro f1 hf1 f2 hf2
    rw [hentry.2 f1 (hsub.subset hf1), hentry.2 f2 (hsub.subset hf2)]
  · exact absurd hg' (List.not_mem_nil g)

/-- Claim C6 amended: the group key is everything before the last separator
occurrence only when that occurrence is at a positive index (otherwise the
whole stripped name); with that rule the code's smart grouping is exactly
the spec pipeline, every emitted group has exactly `n` files in lexicographic
name order all sharing one key, and the spec's example holds. -/
theorem C6_amended :
    (∀ name : String, groupKey name = specSmartKeyAmended name) ∧
    (∀ (files : List String) (n : ℕ),
      groupFilesSmartly files n = specSmartGroupsAmended files n) ∧
    (∀ (files : List String) (n : ℕ) (g : List String),
      g ∈ groupFilesSmartly files n →
      g.length = n ∧ List.Sorted NLe g ∧
        ∀ f1 ∈ g, ∀ f2 ∈ g, groupKey f1 = groupKey f2) ∧
    groupFilesSmartly ["a_L.png", "a_R.png", "b_L.png", "b_R.png"] 2 =
      [["a_L.png", "a_R.png"], ["b_L.png", "b_R.png"]] := by
  refine ⟨fun _ => rfl, fun _ _ => rfl, groupFilesSmartly_groups, by decide⟩

theorem C6_amended_witness :
    (["a_L.png", "a_R.png"] : List String).length = 2 ∧
    List.Sorted NLe ["a_L.png", "a_R.png"] ∧
    ∀ f1 ∈ (["a_L.png", "a_R.png"] : List String),
      ∀ f2 ∈ (["a_L.png", "a_R.png"] : List String), groupKey f1 = groupKey f2 :=
  C6_amended.2.2.1 ["a_L.png", "a_R.png", "b_L.png", "b_R.png"] 2
    ["a_L.png", "a_R.png"] (by decide)

/-- Claim C7 amended: sequential-mode grouping chunks the dropped file list
in its given order (no sort) into consecutive groups of exactly `n`,
discarding a final partial chunk: every emitted group has `n` files and the
groups concatenate to the first `n*(len/n)` files in input order. The result
is deterministic for the same input sequence, not for the same input set. -/
theorem C7_amended (files : List String) (n : ℕ) :
    (∀ g ∈ sequentialGroups files n, g.length = n) ∧
    (sequentialGroups files n).flatten = files.take ((files.length / n) * n) := by
  constructor
  · intro g hg
    exact (chunksExact_mem hg).1
  · exact chunksExact_flatten n files

theorem C7_amended_witness :
    (∀ g ∈ sequentialGroups ["b.png", "a.png"] 2, g.length = 2) ∧
    (sequentialGroups ["b.png", "a.png"] 2).flatten =
      (["b.png", "a.png"] : List String).take
        (((["b.png", "a.png"] : List String).length / 2) * 2) :=
  C7_amended ["b.png", "a.png"] 2

-- ─── Batch run control flow (claim C8; runBatch in src/cli/splitmerge.js) ───

/-- One entry of the batch JSON array. Absent JSON fields are `none` (JS
`undefined`, which is falsy). -/
structure BatchItem where
  left : Option String
  right : Option String
  images : Option (List String)
  out : Option String
deriving DecidableEq

/-- Embedding of the per-item loop of `runBatch` (`src/cli/splitmerge.js`
lines 324–353). `mergeOk` abstracts whether `mergeImages` succeeds on a
path list (file existence, decoding, and encoding are environmental).
Crucially, `path.resolve(outDir, item.out)` runs before the schema check;
when `item.out` is absent Node throws an uncaught `TypeError`, which
propagates out of `runBatch` and aborts the whole batch — modelled as an
`Except.error` that stops the recursion. On normal completion the
accumulated `(success, failed)` tallies are returned. -/
def runBatchItems (mergeOk : List String → Bool) :
    List BatchItem → ℕ → ℕ → Except String (ℕ × ℕ)
  | [], succ, fail => .ok (succ, fail)
  | item :: rest, succ, fail =>
    match item.out with
    | none => .error "TypeError: the path argument must be of type string"
    | some _ =>
      match item.left, item.right with
      | some l, some r =>
        if mergeOk [l, r] then runBatchItems mergeOk rest (succ + 1) fail
        else runBatchItems mergeOk rest succ (fail + 1)
      | _, _ =>
        match item.images with
        | some imgs =>
          if mergeOk imgs then runBatchItems mergeOk rest (succ + 1) fail
          else runBatchItems mergeOk rest succ (fail + 1)
        | none => runBatchItems mergeOk rest succ (fail + 1)

/-- Exit status of a batch run: an uncaught error reaches the fatal handler
(exit 1); otherwise `runBatch` exits 1 iff `failed > 0` (line 356). -/
def runBatchExit (r : Except String (ℕ × ℕ)) : ℕ :=
  match r with
  | .error _ => 1
  | .ok (_, fail) => if 0 < fail then 1 else 0

/-- Claim C8 describes the intended behaviour, but the code computes
`path.resolve(outDir, item.out)` before validating the item: a batch whose
first item is `{}` (lacking `left`/`right`/`images` and `out`) aborts with
an uncaught TypeError before the second, perfectly valid pair is processed —
no per-item recording, no aggregate line. By contrast an invalid item that
does carry `out` is recorded as failed and the batch continues, confirming
the recovery path the first item was meant to hit. -/
theorem C8_batch_abort_on_missing_out :
    runBatchItems (fun _ => true)
      [⟨none, none, none, none⟩, ⟨some "a.png", some "b.png", none, some "ab.png"⟩] 0 0 =
      .error "TypeError: the path argument must be of type string" ∧
    runBatchExit (runBatchItems (fun _ => true)
      [⟨none, none, none, none⟩, ⟨some "a.png", some "b.png", none, some "ab.png"⟩] 0 0) = 1 ∧
    runBatchItems (fun _ => true)
      [⟨none, none, none, some "x.png"⟩, ⟨some "a.png", some "b.png", none, some "ab.png"⟩] 0 0 =
      .ok (1, 1) ∧
    runBatchExit (.ok (2, 0)) = 0 := by
  refine ⟨rfl, rfl, rfl, rfl⟩

-- ─── Rotation transform (claim C9; applyTransform in src/src/ui/app.js) ───

/-- Embedding of the rotation update in `applyTransform` (`src/src/ui/app.js`
line 759): `rotate = (rotate + value + 360) % 360`. The rotation state and
the button values (±90) keep the dividend nonnegative, where JS `%` agrees
with mathematical remainder. -/
def rotateStep (r v : ℤ) : ℤ := (r + v + 360) % 360

/-- Claim C9: from any legal rotation state, one 90° step (clockwise or
counter-clockwise) stays in `{0, 90, 180, 270}`, four clockwise steps
return the rotation to its original value, and hence the effective
width/height (`getDim`) of any image returns to its original value. -/
theorem C9_rotate_roundtrip (r : ℤ) (hr : r = 0 ∨ r = 90 ∨ r = 180 ∨ r = 270)
    (m : Meta) :
    (rotateStep r 90 = 0 ∨ rotateStep r 90 = 90 ∨
      rotateStep r 90 = 180 ∨ rotateStep r 90 = 270) ∧
    (rotateStep r (-90) = 0 ∨ rotateStep r (-90) = 90 ∨
      rotateStep r (-90) = 180 ∨ rotateStep r (-90) = 270) ∧
    rotateStep (rotateStep (rotateStep (rotateStep r 90) 90) 90) 90 = r ∧
    getDim m (rotateStep (rotateStep (rotateStep (rotateStep r 90) 90) 90) 90) =
      getDim m r := by
  have h4 : rotateStep (rotateStep (rotateStep (rotateStep r 90) 90) 90) 90 = r := by
    rcases hr with rfl | rfl | rfl | rfl <;> decide
  refine ⟨?_, ?_, h4, by rw [h4]⟩ <;> rcases hr with rfl | rfl | rfl | rfl <;> decide

theorem C9_rotate_roundtrip_witness :
    (rotateStep 90 90 = 0 ∨ rotateStep 90 90 = 90 ∨
      rotateStep 90 90 = 180 ∨ rotateStep 90 90 = 270) ∧
    (rotateStep 90 (-90) = 0 ∨ rotateStep 90 (-90) = 90 ∨
      rotateStep 90 (-90) = 180 ∨ rotateStep 90 (-90) = 270) ∧
    rotateStep (rotateStep (rotateStep (rotateStep 90 90) 90) 90) 90 = 90 ∧
    getDim ⟨640, 480⟩ (rotateStep (rotateStep (rotateStep (rotateStep 90 90) 90) 90) 90) =
      getDim ⟨640, 480⟩ 90 :=
  C9_rotate_roundtrip 90 (by decide) ⟨640, 480⟩

end ImageMerger
